import Mathlib

/-!
Verification development for the geometric graph-construction utilities of
`kgcnn` (file `kgcnn/graph/geom.py`).

The Python module is pure numerical `numpy` code.  It is embedded here over
exact rationals `ℚ`:

* 3-vectors and 3×3 matrices are concrete structures of rationals;
* Euclidean distances are irrational in general, so every distance is
  represented by its *square* (a rational).  All comparisons and the sort the
  source performs on distances are images of comparisons on squared distances
  under the monotone map `Real.sqrt`, and the three places where the source
  compares a square root against a rational-plus-square-root threshold are
  embedded as the equivalent decidable rational inequalities (`leAddSqrt`,
  `ceilAddSqrt`, `leSqrtRat` below, each derived by squaring);
* transcendental scalar functions (`x ** (1/2.4)`, `cos`, `sin`, `x ** 0.5`)
  have no exact rational counterpart; the functions that use them take them as
  explicit oracle parameters, and theorems constrain the oracles only by the
  IEEE-754 facts that hold at the points where they are applied;
* IEEE-754 special values matter for `coulomb_matrix_to_inverse_distance_proton`
  and `make_rotation_matrix` (division by zero must yield `inf`/`nan`, not the
  Lean convention `x / 0 = 0`), so those two functions are embedded over the
  scalar type `F` (finite rational, `inf`, `-inf`, `nan`) with IEEE-754
  multiplication/addition/division rules.  Signed zero is not modelled; no
  settled statement depends on the sign of a zero;
* the Python exceptions the module can raise (`numpy.linalg.LinAlgError` from
  `np.linalg.inv` on an exactly singular matrix, `TypeError` from
  `None + float`) are modelled with `PyResult`.
-/

set_option allowUnsafeReducibility true in
attribute [semireducible] Rat.add Rat.mul Rat.sub Rat.inv Rat.ofScientific

/-- Vector in `ℚ^3`, the embedding of a numpy array of shape `(3,)`. -/
structure V3 where
  x : ℚ
  y : ℚ
  z : ℚ
deriving DecidableEq, Repr

instance : Add V3 := ⟨fun a b => ⟨a.x + b.x, a.y + b.y, a.z + b.z⟩⟩

instance : Sub V3 := ⟨fun a b => ⟨a.x - b.x, a.y - b.y, a.z - b.z⟩⟩

instance : Neg V3 := ⟨fun a => ⟨-a.x, -a.y, -a.z⟩⟩

instance : SMul ℚ V3 := ⟨fun q v => ⟨q * v.x, q * v.y, q * v.z⟩⟩

/-- Zero vector. -/
def V3.zero : V3 := ⟨0, 0, 0⟩

@[simp] theorem V3.add_x (a b : V3) : (a + b).x = a.x + b.x := rfl

@[simp] theorem V3.add_y (a b : V3) : (a + b).y = a.y + b.y := rfl

@[simp] theorem V3.add_z (a b : V3) : (a + b).z = a.z + b.z := rfl

@[simp] theorem V3.sub_x (a b : V3) : (a - b).x = a.x - b.x := rfl

@[simp] theorem V3.sub_y (a b : V3) : (a - b).y = a.y - b.y := rfl

@[simp] theorem V3.sub_z (a b : V3) : (a - b).z = a.z - b.z := rfl

@[simp] theorem V3.neg_x (a : V3) : (-a).x = -a.x := rfl

@[simp] theorem V3.neg_y (a : V3) : (-a).y = -a.y := rfl

@[simp] theorem V3.neg_z (a : V3) : (-a).z = -a.z := rfl

@[simp] theorem V3.smul_x (q : ℚ) (a : V3) : (q • a).x = q * a.x := rfl

@[simp] theorem V3.smul_y (q : ℚ) (a : V3) : (q • a).y = q * a.y := rfl

@[simp] theorem V3.smul_z (q : ℚ) (a : V3) : (q • a).z = q * a.z := rfl

@[ext] theorem V3.ext_components {a b : V3} (hx : a.x = b.x) (hy : a.y = b.y)
    (hz : a.z = b.z) : a = b := by
  cases a; cases b; simp_all

/-- Squared Euclidean norm, the embedding of `np.sum(np.square(v), axis=-1)`
followed (in the source) by `np.sqrt`; the square root is kept implicit. -/
def V3.normSq (v : V3) : ℚ := v.x ^ 2 + v.y ^ 2 + v.z ^ 2

/-- Integer triple: a periodic image offset (numpy integer array of shape `(3,)`). -/
structure Z3 where
  x : ℤ
  y : ℤ
  z : ℤ
deriving DecidableEq, Repr

/-- Zero image offset (the central cell). -/
def Z3.zero : Z3 := ⟨0, 0, 0⟩

instance : Neg Z3 := ⟨fun g => ⟨-g.x, -g.y, -g.z⟩⟩

@[simp] theorem Z3.negc_x (g : Z3) : (-g).x = -g.x := rfl

@[simp] theorem Z3.negc_y (g : Z3) : (-g).y = -g.y := rfl

@[simp] theorem Z3.negc_z (g : Z3) : (-g).z = -g.z := rfl

/-- 3×3 rational matrix given by its rows, the embedding of a numpy array of
shape `(3, 3)`.  A lattice is stored this way: lattice vectors are the rows. -/
structure M3 where
  r0 : V3
  r1 : V3
  r2 : V3
deriving DecidableEq, Repr

/-- Matrix transpose (`np.transpose`). -/
def M3.transpose (m : M3) : M3 :=
  ⟨⟨m.r0.x, m.r1.x, m.r2.x⟩, ⟨m.r0.y, m.r1.y, m.r2.y⟩, ⟨m.r0.z, m.r1.z, m.r2.z⟩⟩

/-- Determinant of a 3×3 matrix. -/
def det3 (m : M3) : ℚ :=
  m.r0.x * (m.r1.y * m.r2.z - m.r1.z * m.r2.y)
    - m.r0.y * (m.r1.x * m.r2.z - m.r1.z * m.r2.x)
    + m.r0.z * (m.r1.x * m.r2.y - m.r1.y * m.r2.x)

/-- Matrix inverse by cofactors, the embedding of `np.linalg.inv`.  In the
source an exactly singular input raises `LinAlgError`; callers of `inv3` guard
on `det3 _ = 0` accordingly (the rational division below would silently return
the zero matrix, which is never reached on the guarded path). -/
def inv3 (m : M3) : M3 :=
  let d := det3 m
  ⟨⟨(m.r1.y * m.r2.z - m.r1.z * m.r2.y) / d,
    (m.r0.z * m.r2.y - m.r0.y * m.r2.z) / d,
    (m.r0.y * m.r1.z - m.r0.z * m.r1.y) / d⟩,
   ⟨(m.r1.z * m.r2.x - m.r1.x * m.r2.z) / d,
    (m.r0.x * m.r2.z - m.r0.z * m.r2.x) / d,
    (m.r0.z * m.r1.x - m.r0.x * m.r1.z) / d⟩,
   ⟨(m.r1.x * m.r2.y - m.r1.y * m.r2.x) / d,
    (m.r0.y * m.r2.x - m.r0.x * m.r2.y) / d,
    (m.r0.x * m.r1.y - m.r0.y * m.r1.x) / d⟩⟩

/-- Row vector (integer image offset) times matrix of rows:
`np.dot(g, lattice_row)`, the real-space translation of image `g`. -/
def rowVecMul (g : Z3) (L : M3) : V3 :=
  (g.x : ℚ) • L.r0 + (g.y : ℚ) • L.r1 + (g.z : ℚ) • L.r2

/-- Sum of absolute values of each row (`np.sum(np.abs(m), axis=1)`). -/
def absRowSums (m : M3) : V3 :=
  ⟨|m.r0.x| + |m.r0.y| + |m.r0.z|,
   |m.r1.x| + |m.r1.y| + |m.r1.z|,
   |m.r2.x| + |m.r2.y| + |m.r2.z|⟩

/-- Decidable embedding of the comparison `Real.sqrt s ≤ md + Real.sqrt r`
(for `0 ≤ s`, `0 ≤ r`), obtained by squaring twice.  This is the coarse image
prune `dist_centers <= max_distance + max_radius_cell` of the source, with
`s` the squared center distance and `r` the squared cell radius. -/
def leAddSqrt (s md r : ℚ) : Bool :=
  if 0 ≤ md then
    if s - md ^ 2 - r ≤ 0 then true
    else decide ((s - md ^ 2 - r) ^ 2 ≤ 4 * md ^ 2 * r)
  else
    if r - s - md ^ 2 < 0 then false
    else decide (4 * md ^ 2 * s ≤ (r - s - md ^ 2) ^ 2)

/-- Decidable embedding of `⌈a + Real.sqrt s⌉` (for `0 ≤ s`): the bounding-box
index `np.ceil(... * (max_distance + max_radius_cell))` of the source, with
`a` the rational part and `s` the square of the square-root part.  The result
is the least `n ≥ ⌈a⌉` with `s ≤ (n - a)^2`; the search is bounded by
`⌈s⌉ + 1 ≥ Real.sqrt s`. -/
def ceilAddSqrt (a s : ℚ) : ℤ :=
  let n0 : ℤ := ⌈a⌉
  let bound : ℕ := s.ceil.toNat + 1
  n0 + (List.range (bound + 1)).findIdx
    (fun k : ℕ => decide (s ≤ ((n0 + (k : ℤ) : ℚ) - a) ^ 2))

/-- Decidable embedding of the final mask `Real.sqrt dsq ≤ md`
(`dist_sort <= max_distance` in the source), for `0 ≤ dsq`. -/
def leSqrtRat (dsq md : ℚ) : Bool :=
  decide (0 ≤ md) && decide (dsq ≤ md ^ 2)

/-- Embedding of `np.arange(lo, hi + 1, 1)` over `ℤ`. -/
def rangeZ (lo hi : ℤ) : List ℤ :=
  (List.range (hi + 1 - lo).toNat).map (fun k : ℕ => lo + (k : ℤ))

/-- Embedding of `mesh_grid_list(-b, b)` of the source:
`np.array(np.meshgrid(pos0, pos1, pos2)).T.reshape(-1, 3)` enumerates, for the
default `indexing='xy'`, the triples `(pos0[i], pos1[j], pos2[k])` with `k`
slowest, then `i`, then `j`. -/
def meshGrid (b : Z3) : List Z3 :=
  (rangeZ (-b.z) b.z).flatMap (fun k =>
    (rangeZ (-b.x) b.x).flatMap (fun i =>
      (rangeZ (-b.y) b.y).map (fun j => ⟨i, j, k⟩)))

/-- Center of the unit cell: `np.sum(lattice_row, axis=0, keepdims=True) / 2`. -/
def cellCenter (L : M3) : V3 := ((1 : ℚ) / 2) • (L.r0 + L.r1 + L.r2)

/-- Square of `max_radius_cell`: max over rows of the squared distance of each
lattice vector to the cell center (the source takes `np.amax` of the square
roots; `max` commutes with the monotone square root). -/
def cellRadiusSq (L : M3) : ℚ :=
  max (max (V3.normSq (L.r0 - cellCenter L)) (V3.normSq (L.r1 - cellCenter L)))
    (V3.normSq (L.r2 - cellCenter L))

/-- Bounding box of periodic image indices (source lines 203–206):
`np.ceil(np.sum(np.abs(np.linalg.inv(lattice_col)), axis=1) * (max_distance + max_radius_cell))`
with `ceilAddSqrt` splitting each component into rational part `cᵢ·md` and
square-root part `cᵢ·√rmax = √(cᵢ²·rmax)`. -/
def boundingBox (L : M3) (md : ℚ) : Z3 :=
  let c := absRowSums (inv3 (M3.transpose L))
  let r := cellRadiusSq L
  ⟨ceilAddSqrt (c.x * md) (c.x ^ 2 * r),
   ceilAddSqrt (c.y * md) (c.y ^ 2 * r),
   ceilAddSqrt (c.z * md) (c.z ^ 2 * r)⟩

/-- Surviving periodic images (source lines 208–215): the mesh grid without
the central cell, pruned to translations with
`‖g·L‖ ≤ max_distance + max_radius_cell`. -/
def latticeImages (L : M3) (md : ℚ) : List Z3 :=
  ((meshGrid (boundingBox L md)).filter (fun g => decide (¬ g = Z3.zero))).filter
    (fun g => leAddSqrt (V3.normSq (rowVecMul g L)) md (cellRadiusSq L))

/-- One neighbour candidate: central node, neighbour node, periodic image
offset, squared distance.  This is one aligned slice of the parallel arrays
`dist_indices`, `dist_images`, `dist` of the source. -/
structure Cand where
  ctr : ℕ
  nb : ℕ
  img : Z3
  dsq : ℚ
deriving DecidableEq, Repr

/-- Ordering of candidates by (squared) distance, the sort key of
`np.argsort(dist, axis=-1)`.  The source's quicksort leaves the order of equal
distances unspecified; a stable insertion sort is used here, which fixes one
of the admitted tie orders. -/
def candLE (a b : Cand) : Prop := a.dsq ≤ b.dsq

instance : DecidableRel candLE := fun a b => inferInstanceAs (Decidable (a.dsq ≤ b.dsq))

instance : IsTotal Cand candLE := ⟨fun a b => le_total a.dsq b.dsq⟩

instance : IsTrans Cand candLE := ⟨fun _ _ _ hab hbc => le_trans hab hbc⟩

/-- Node coordinate lookup (out-of-range reads never occur on used indices). -/
def getPt (coords : List V3) (i : ℕ) : V3 := coords.getD i V3.zero

/-- Same-cell candidates of central node `i` (source lines 236–249): all pairs
`(i, j)` with image `(0,0,0)`, the diagonal `j = i` removed unless
`self_loops` is set. -/
def centerRow (coords : List V3) (self_loops : Bool) (i : ℕ) : List Cand :=
  ((List.range coords.length).filter (fun j => self_loops || decide (¬ j = i))).map
    (fun j => ⟨i, j, Z3.zero, V3.normSq (getPt coords j - getPt coords i)⟩)

/-- Periodic-image candidates of central node `i` (source lines 227–256): for
every node `n` (outer) and surviving image `g` (inner), the displacement
`coords[n] + g·L - coords[i]`. -/
def imageRow (coords : List V3) (L : M3) (md : ℚ) (i : ℕ) : List Cand :=
  (List.range coords.length).flatMap (fun n =>
    (latticeImages L md).map (fun g =>
      ⟨i, n, g, V3.normSq (getPt coords n + rowVecMul g L - getPt coords i)⟩))

/-- All candidates of central node `i` in source order: same-cell candidates
first (line 259 concatenates `center_indices` in front), then image candidates. -/
def rowBase (coords : List V3) (L : M3) (md : ℚ) (self_loops : Bool) (i : ℕ) : List Cand :=
  centerRow coords self_loops i ++ imageRow coords L md i

/-- Final candidate list of central node `i`: optionally sorted by distance
(lines 267–277), then filtered by the cutoff `dist ≤ max_distance` (lines
279–284). -/
def nlRow (coords : List V3) (L : M3) (md : ℚ) (self_loops sort_distance : Bool)
    (i : ℕ) : List Cand :=
  (if sort_distance then List.insertionSort candLE (rowBase coords L md self_loops i)
   else rowBase coords L md self_loops i).filter (fun c => leSqrtRat c.dsq md)

/-- The flattened output: numpy boolean masking of the `N×(N·C+M)` arrays is
row-major, so the rows are concatenated in ascending central-node order. -/
def nlCands (coords : List V3) (L : M3) (md : ℚ) (self_loops sort_distance : Bool) :
    List Cand :=
  (List.range coords.length).flatMap (nlRow coords L md self_loops sort_distance)

/-- Python exceptions reachable from `range_neighbour_lattice`:
`numpy.linalg.LinAlgError` (singular matrix in `np.linalg.inv`) and
`TypeError` (`None + float` when `max_distance is None`, line 204). -/
inductive PyErr where
  | linAlgError : PyErr
  | typeError : PyErr
deriving DecidableEq, Repr

/-- Result of a Python call: a value or a raised exception. -/
inductive PyResult (α : Type) where
  | ok : α → PyResult α
  | error : PyErr → PyResult α
deriving DecidableEq, Repr

/-- Embedding of `range_neighbour_lattice(coordinates, lattice, max_distance,
self_loops, sort_distance)` (source lines 169–286).  Distances are returned as
squared distances (see the file header).  Python evaluates line 204
left-to-right: `np.linalg.inv(lattice_col)` first (raising `LinAlgError` on an
exactly singular lattice), then `max_distance + max_radius_cell` (raising
`TypeError` when `max_distance` is `None`). -/
def range_neighbour_lattice (coords : List V3) (L : M3) (md? : Option ℚ)
    (self_loops sort_distance : Bool) :
    PyResult (List (ℕ × ℕ) × List Z3 × List ℚ) :=
  if det3 (M3.transpose L) = 0 then .error .linAlgError
  else
    match md? with
    | none => .error .typeError
    | some md =>
      let cands := nlCands coords L md self_loops sort_distance
      .ok (cands.map (fun c => (c.ctr, c.nb)), cands.map Cand.img, cands.map Cand.dsq)


/-- Candidate obtained by swapping central and neighbour node and negating the
periodic image; the displacement is negated, so the (squared) distance is the
same field.  Used to state the symmetry property of the neighbour list. -/
def mirrorCand (c : Cand) : Cand := ⟨c.nb, c.ctr, -c.img, c.dsq⟩

/-- Candidate with the squared distance scaled by `t^2` (indices and image
unchanged): the image of a candidate under scaling all coordinates, the
lattice and the cutoff by `t`. -/
def scaleCand (t : ℚ) (c : Cand) : Cand := ⟨c.ctr, c.nb, c.img, t ^ 2 * c.dsq⟩

/-- Simple cubic lattice with lattice constant `a`. -/
def cubic (a : ℚ) : M3 := ⟨⟨a, 0, 0⟩, ⟨0, a, 0⟩, ⟨0, 0, a⟩⟩

instance : SMul ℚ M3 := ⟨fun t m => ⟨t • m.r0, t • m.r1, t • m.r2⟩⟩

@[simp] theorem M3.smul_r0 (t : ℚ) (m : M3) : (t • m).r0 = t • m.r0 := rfl

@[simp] theorem M3.smul_r1 (t : ℚ) (m : M3) : (t • m).r1 = t • m.r1 := rfl

@[simp] theorem M3.smul_r2 (t : ℚ) (m : M3) : (t • m).r2 = t • m.r2 := rfl

@[ext] theorem M3.ext_rows {a b : M3} (h0 : a.r0 = b.r0) (h1 : a.r1 = b.r1)
    (h2 : a.r2 = b.r2) : a = b := by
  cases a; cases b; simp_all

/-!  IEEE-754 shadow scalars for the two functions whose behaviour on
division by zero matters (`coulomb_matrix_to_inverse_distance_proton`,
`make_rotation_matrix`). -/

/-- An IEEE-754 double whose finite values happen to be rational: a finite
value, `+inf`, `-inf`, or `nan`.  Signed zero is not modelled (the sign of a
zero never influences a settled statement; comments note where `+0` is
assumed). -/
inductive F where
  | fin : ℚ → F
  | inf : F
  | ninf : F
  | nan : F
deriving DecidableEq, Repr

/-- IEEE-754 negation. -/
def F.neg : F → F
  | fin q => fin (-q)
  | inf => ninf
  | ninf => inf
  | nan => nan

/-- IEEE-754 addition: `nan` absorbs, `inf + (-inf) = nan`. -/
def F.add : F → F → F
  | nan, _ => nan
  | _, nan => nan
  | fin a, fin b => fin (a + b)
  | fin _, inf => inf
  | fin _, ninf => ninf
  | inf, fin _ => inf
  | ninf, fin _ => ninf
  | inf, inf => inf
  | inf, ninf => nan
  | ninf, inf => nan
  | ninf, ninf => ninf

/-- IEEE-754 subtraction `a - b = a + (-b)`. -/
def F.sub (a b : F) : F := F.add a (F.neg b)

/-- IEEE-754 multiplication: `nan` absorbs, `0 * inf = nan`. -/
def F.mul : F → F → F
  | nan, _ => nan
  | _, nan => nan
  | fin a, fin b => fin (a * b)
  | fin a, inf => if 0 < a then inf else if a < 0 then ninf else nan
  | fin a, ninf => if 0 < a then ninf else if a < 0 then inf else nan
  | inf, fin b => if 0 < b then inf else if b < 0 then ninf else nan
  | ninf, fin b => if 0 < b then ninf else if b < 0 then inf else nan
  | inf, inf => inf
  | inf, ninf => ninf
  | ninf, inf => ninf
  | ninf, ninf => inf

/-- IEEE-754 division: `x / 0` is `±inf` for `x ≠ 0` and `nan` for `x = 0`
(numpy emits a `RuntimeWarning` and continues).  The unsigned model zero acts
as `+0`, matching every use site (denominators that vanish there are products
of non-negative charges). -/
def F.div : F → F → F
  | nan, _ => nan
  | _, nan => nan
  | fin a, fin b =>
    if b = 0 then (if a = 0 then nan else if 0 < a then inf else ninf)
    else fin (a / b)
  | fin _, inf => fin 0
  | fin _, ninf => fin 0
  | inf, fin b => if b < 0 then ninf else inf
  | ninf, fin b => if b < 0 then inf else ninf
  | inf, inf => nan
  | inf, ninf => nan
  | ninf, inf => nan
  | ninf, ninf => nan

/-- `np.round`: round half to even (numpy's documented behaviour for values
exactly halfway between two integers). -/
def roundHalfEven (q : ℚ) : ℤ :=
  let f := ⌊q⌋
  let r := q - f
  if r < 1 / 2 then f
  else if 1 / 2 < r then f + 1
  else if 2 ∣ f then f else f + 1

/-- `np.round` lifted to the IEEE shadow scalars. -/
def F.round : F → F
  | fin q => fin ((roundHalfEven q : ℤ) : ℚ)
  | inf => inf
  | ninf => ninf
  | nan => nan

/-- Cast to a machine integer (`np.array(..., dtype=np.int)`).  The cast of a
non-finite value is platform-defined in numpy; it is modelled as `0` and no
settled statement depends on it. -/
def F.toInt : F → ℤ
  | fin q => ⌊q⌋
  | _ => 0

/-- Embedding of `coulomb_matrix_to_inverse_distance_proton(coulomb_mat,
unit_conversion)` (source lines 4–27) for a single matrix of shape `(N, N)`.

The charge recovery `z = np.power(2 * z, 1 / 2.4)` applies a transcendental
fractional power; it is supplied as the oracle `pow_ : ℚ → F` standing for
`x ↦ x ** (1/2.4)` on IEEE doubles, applied to the exact value `2 * C[i,i]`.
Theorems constrain `pow_` only by IEEE facts at the applied points (for
example `0 ** (1/2.4) = 0`, `1 ** (1/2.4) = 1`).

Steps, in source order: recover charges `z` from the diagonal, divide the
matrix elementwise by the outer product `z_i * z_j`, zero the diagonal,
divide by `unit_conversion`, and round `z` to integers with `np.round`. -/
def coulomb_matrix_to_inverse_distance_proton (pow_ : ℚ → F) (n : ℕ)
    (coulomb_mat : Fin n → Fin n → ℚ) (unit_conversion : ℚ) :
    (Fin n → Fin n → F) × (Fin n → ℤ) :=
  let z : Fin n → F := fun i => pow_ (2 * coulomb_mat i i)
  let zz : Fin n → Fin n → F := fun i j => F.mul (z i) (z j)
  let c : Fin n → Fin n → F := fun i j => F.div (F.fin (coulomb_mat i j)) (zz i j)
  let cDiag : Fin n → Fin n → F := fun i j => if i = j then F.fin 0 else c i j
  let cOut : Fin n → Fin n → F := fun i j => F.div (cDiag i j) (F.fin unit_conversion)
  (cOut, fun i => F.toInt (F.round (z i)))

/-- Embedding of `make_rotation_matrix(vector, angle)` (source lines 30–55).

The conversion `angle / 180 * np.pi` and the trigonometric functions are
transcendental; `cos_angle` and `sin_angle` are oracle values standing for
`np.cos(angle / 180 * np.pi)` and `np.sin(angle / 180 * np.pi)`, and
`sqrt_ : F → F` stands for `x ↦ x ** 0.5` (so the norm of line 43 is
`sqrt_` of the exact sum of squares).  Entry formulas follow lines 46–54. -/
def make_rotation_matrix (sqrt_ : F → F) (cos_angle sin_angle : F)
    (vector : ℚ × ℚ × ℚ) : Fin 3 → Fin 3 → F :=
  let norm := sqrt_ (F.fin (vector.1 * vector.1 + vector.2.1 * vector.2.1 +
    vector.2.2 * vector.2.2))
  let d0 := F.div (F.fin vector.1) norm
  let d1 := F.div (F.fin vector.2.1) norm
  let d2 := F.div (F.fin vector.2.2) norm
  let c := cos_angle
  let s := sin_angle
  let omc := F.sub (F.fin 1) c
  ![![F.add (F.mul (F.mul d0 d0) omc) c,
     F.sub (F.mul (F.mul d0 d1) omc) (F.mul d2 s),
     F.add (F.mul (F.mul d0 d2) omc) (F.mul d1 s)],
    ![F.add (F.mul (F.mul d0 d1) omc) (F.mul d2 s),
     F.add (F.mul (F.mul d1 d1) omc) c,
     F.sub (F.mul (F.mul d1 d2) omc) (F.mul d0 s)],
    ![F.sub (F.mul (F.mul d0 d2) omc) (F.mul d1 s),
     F.add (F.mul (F.mul d1 d2) omc) (F.mul d0 s),
     F.add (F.mul (F.mul d2 d2) omc) c]]

/-- Dot product of two vectors. -/
def V3.dot (a b : V3) : ℚ := a.x * b.x + a.y * b.y + a.z * b.z

/-- Matrix times column vector. -/
def M3.mulVec (m : M3) (v : V3) : V3 := ⟨m.r0.dot v, m.r1.dot v, m.r2.dot v⟩

/-- Matrix product. -/
def M3.mul (a b : M3) : M3 :=
  let bt := b.transpose
  ⟨⟨a.r0.dot bt.r0, a.r0.dot bt.r1, a.r0.dot bt.r2⟩,
   ⟨a.r1.dot bt.r0, a.r1.dot bt.r1, a.r1.dot bt.r2⟩,
   ⟨a.r2.dot bt.r0, a.r2.dot bt.r1, a.r2.dot bt.r2⟩⟩

/-- Zero matrix. -/
def M3.zero : M3 := ⟨V3.zero, V3.zero, V3.zero⟩

/-- Elementwise matrix sum. -/
def M3.addM (a b : M3) : M3 := ⟨a.r0 + b.r0, a.r1 + b.r1, a.r2 + b.r2⟩

/-- Outer product `u vᵀ` of two 3-vectors. -/
def outer (u v : V3) : M3 := ⟨u.x • v, u.y • v, u.z • v⟩

/-- Mean of a list of points (`np.mean(a, axis=1)` on the transposed `3×N`
array).  The empty list gives the zero vector (numpy would give `nan` with a
warning; settled statements never use it). -/
def centroid (l : List V3) : V3 :=
  ((l.length : ℚ))⁻¹ • (l.foldl (· + ·) V3.zero)

/-- `vt` with the last row negated (`vt[-1, :] *= -1`, the reflection fix). -/
def negLastRow (m : M3) : M3 := ⟨m.r0, m.r1, -m.r2⟩

/-- Embedding of `rigid_transform(a, b, correct_reflection)` (source lines
87–132), the Kabsch alignment of point cloud `a` onto point cloud `b`.

`np.linalg.svd(h)` is transcendental (and underspecified up to gauge);
it is supplied as the oracle `svd : M3 → M3 × V3 × M3` standing for the
`(u, s, vt)` triple numpy returns.  Every statement proved about this
function holds for an arbitrary oracle, hence in particular for numpy's.

Steps, in source order: centre both clouds on their means, form the
cross-covariance `h = am · bmᵀ`, take `r = vtᵀ · uᵀ` from the SVD of `h`,
optionally flip the last right singular vector when `det r < 0` and
`correct_reflection` is set, then return the aligned points
`r · am + centroid_b`, the rotation `r`, and `t = centroid_b - r·centroid_a`. -/
def rigid_transform (svd : M3 → M3 × V3 × M3) (a b : List V3)
    (correct_reflection : Bool) : List V3 × M3 × V3 :=
  let centroid_a := centroid a
  let centroid_b := centroid b
  let am := a.map (fun p => p - centroid_a)
  let bm := b.map (fun p => p - centroid_b)
  let h := (List.zipWith outer am bm).foldl M3.addM M3.zero
  let usv := svd h
  let u := usv.1
  let vt := usv.2.2
  let r0 := M3.mul vt.transpose u.transpose
  let r := if decide (det3 r0 < 0) && correct_reflection then
    M3.mul (negLastRow vt).transpose u.transpose else r0
  let bout := am.map (fun p => M3.mulVec r p + centroid_b)
  let t := centroid_b - M3.mulVec r centroid_a
  (bout, r, t)

/-! Basic algebraic lemmas about the vector and candidate structures. -/

theorem V3.normSq_neg (v : V3) : (-v).normSq = v.normSq := by
  simp only [V3.normSq, V3.neg_x, V3.neg_y, V3.neg_z]; ring

theorem V3.normSq_smul (t : ℚ) (v : V3) : (t • v).normSq = t ^ 2 * v.normSq := by
  simp only [V3.normSq, V3.smul_x, V3.smul_y, V3.smul_z]; ring

theorem V3.neg_sub' (a b : V3) : -(a - b) = b - a := by
  ext <;> simp [neg_sub]

theorem V3.normSq_sub_comm (a b : V3) : (a - b).normSq = (b - a).normSq := by
  rw [← V3.neg_sub' a b, V3.normSq_neg]

theorem V3.smul_zero' (t : ℚ) : t • V3.zero = V3.zero := by
  ext <;> simp [V3.zero]

theorem rowVecMul_neg (g : Z3) (L : M3) : rowVecMul (-g) L = -(rowVecMul g L) := by
  ext <;> simp [rowVecMul] <;> ring

theorem Z3.neg_zero' : -Z3.zero = Z3.zero := by
  show (⟨-0, -0, -0⟩ : Z3) = _
  simp [Z3.zero]

theorem Z3.ext_iff' (a b : Z3) : a = b ↔ a.x = b.x ∧ a.y = b.y ∧ a.z = b.z := by
  constructor
  · rintro rfl; exact ⟨rfl, rfl, rfl⟩
  · rintro ⟨h1, h2, h3⟩; cases a; cases b; simp_all

theorem Z3.neg_eq_zero_iff (g : Z3) : -g = Z3.zero ↔ g = Z3.zero := by
  simp [Z3.ext_iff', Z3.zero, neg_eq_zero]

theorem mem_rangeZ {lo hi v : ℤ} : v ∈ rangeZ lo hi ↔ lo ≤ v ∧ v ≤ hi := by
  constructor
  · intro hv
    obtain ⟨k, hk, hkv⟩ := List.mem_map.mp hv
    rw [List.mem_range] at hk
    omega
  · rintro ⟨h1, h2⟩
    refine List.mem_map.mpr ⟨(v - lo).toNat, List.mem_range.mpr ?_, ?_⟩ <;> omega

theorem mem_meshGrid {b g : Z3} :
    g ∈ meshGrid b ↔
      (-b.x ≤ g.x ∧ g.x ≤ b.x) ∧ (-b.y ≤ g.y ∧ g.y ≤ b.y) ∧
        (-b.z ≤ g.z ∧ g.z ≤ b.z) := by
  unfold meshGrid
  simp only [List.mem_flatMap, List.mem_map, mem_rangeZ]
  constructor
  · rintro ⟨k, hk, i, hi, j, hj, rfl⟩
    exact ⟨hi, hj, hk⟩
  · rintro ⟨hx, hy, hz⟩
    exact ⟨g.z, hz, g.x, hx, g.y, hy, by cases g; rfl⟩

theorem latticeImages_ne_zero {L : M3} {md : ℚ} {g : Z3}
    (hg : g ∈ latticeImages L md) : g ≠ Z3.zero := by
  unfold latticeImages at hg
  simp only [List.mem_filter, decide_eq_true_eq] at hg
  exact hg.1.2

theorem latticeImages_neg_mem {L : M3} {md : ℚ} {g : Z3}
    (hg : g ∈ latticeImages L md) : -g ∈ latticeImages L md := by
  unfold latticeImages at hg ⊢
  simp only [List.mem_filter, decide_eq_true_eq] at hg ⊢
  obtain ⟨⟨hmesh, hnz⟩, hle⟩ := hg
  refine ⟨⟨?_, ?_⟩, ?_⟩
  · rw [mem_meshGrid] at hmesh ⊢
    simp only [Z3.negc_x, Z3.negc_y, Z3.negc_z]
    omega
  · rw [Z3.neg_eq_zero_iff]; exact hnz
  · rw [rowVecMul_neg, V3.normSq_neg]; exact hle

/-! Membership characterisations of the candidate lists. -/

theorem mem_centerRow {coords : List V3} {sl : Bool} {i : ℕ} {c : Cand} :
    c ∈ centerRow coords sl i ↔
      ∃ j, j < coords.length ∧ (sl = true ∨ j ≠ i) ∧
        c = ⟨i, j, Z3.zero, V3.normSq (getPt coords j - getPt coords i)⟩ := by
  unfold centerRow
  simp only [List.mem_map, List.mem_filter, List.mem_range, Bool.or_eq_true,
    decide_eq_true_eq]
  constructor
  · rintro ⟨j, ⟨hj, hcond⟩, rfl⟩
    exact ⟨j, hj, hcond, rfl⟩
  · rintro ⟨j, hj, hcond, rfl⟩
    exact ⟨j, ⟨hj, hcond⟩, rfl⟩

theorem mem_imageRow {coords : List V3} {L : M3} {md : ℚ} {i : ℕ} {c : Cand} :
    c ∈ imageRow coords L md i ↔
      ∃ n, n < coords.length ∧ ∃ g, g ∈ latticeImages L md ∧
        c = ⟨i, n, g, V3.normSq (getPt coords n + rowVecMul g L - getPt coords i)⟩ := by
  unfold imageRow
  simp only [List.mem_flatMap, List.mem_map, List.mem_range]
  constructor
  · rintro ⟨n, hn, g, hg, rfl⟩
    exact ⟨n, hn, g, hg, rfl⟩
  · rintro ⟨n, hn, g, hg, rfl⟩
    exact ⟨n, hn, g, hg, rfl⟩

theorem mem_nlRow {coords : List V3} {L : M3} {md : ℚ} {sl sd : Bool} {i : ℕ}
    {c : Cand} :
    c ∈ nlRow coords L md sl sd i ↔
      ((c ∈ centerRow coords sl i ∨ c ∈ imageRow coords L md i) ∧
        leSqrtRat c.dsq md = true) := by
  unfold nlRow rowBase
  split
  · simp only [List.mem_filter,
      (List.perm_insertionSort candLE _).mem_iff, List.mem_append, or_and_right]
  · simp only [List.mem_filter, List.mem_append, or_and_right]

theorem mem_nlCands {coords : List V3} {L : M3} {md : ℚ} {sl sd : Bool}
    {c : Cand} :
    c ∈ nlCands coords L md sl sd ↔
      ∃ i, i < coords.length ∧ c ∈ nlRow coords L md sl sd i := by
  unfold nlCands
  simp only [List.mem_flatMap, List.mem_range]

theorem nlRow_ctr {coords : List V3} {L : M3} {md : ℚ} {sl sd : Bool} {i : ℕ}
    {c : Cand} (hc : c ∈ nlRow coords L md sl sd i) : c.ctr = i := by
  rcases (mem_nlRow.mp hc).1 with h | h
  · rcases mem_centerRow.mp h with ⟨j, _, _, rfl⟩; rfl
  · rcases mem_imageRow.mp h with ⟨n, _, g, _, rfl⟩; rfl

/-- C5: for every entry `(i, j, image)` in the output of
`range_neighbour_lattice` there is an entry `(j, i, -image)` with equal
(squared) distance in the same output, and on valid inputs the function
returns exactly the projections of the candidate list the first conjunct
speaks about. -/
theorem range_neighbour_lattice_symmetric
    (coords : List V3) (L : M3) (md : ℚ) (sl sd : Bool) :
    (∀ c ∈ nlCands coords L md sl sd,
        mirrorCand c ∈ nlCands coords L md sl sd)
    ∧ (det3 (M3.transpose L) ≠ 0 →
        range_neighbour_lattice coords L (some md) sl sd =
          .ok ((nlCands coords L md sl sd).map (fun c => (c.ctr, c.nb)),
               (nlCands coords L md sl sd).map Cand.img,
               (nlCands coords L md sl sd).map Cand.dsq)) := by
  constructor
  · intro c hc
    obtain ⟨i, hi, hrow⟩ := mem_nlCands.mp hc
    have hpass := (mem_nlRow.mp hrow).2
    rcases (mem_nlRow.mp hrow).1 with h | h
    · obtain ⟨j, hj, hcond, rfl⟩ := mem_centerRow.mp h
      apply mem_nlCands.mpr
      refine ⟨j, hj, mem_nlRow.mpr ⟨Or.inl ?_, hpass⟩⟩
      apply mem_centerRow.mpr
      refine ⟨i, hi, ?_, ?_⟩
      · rcases hcond with h' | h'
        · exact Or.inl h'
        · exact Or.inr (Ne.symm h')
      · show (⟨j, i, -Z3.zero, _⟩ : Cand) = _
        rw [Z3.neg_zero', V3.normSq_sub_comm]
    · obtain ⟨n, hn, g, hg, rfl⟩ := mem_imageRow.mp h
      apply mem_nlCands.mpr
      refine ⟨n, hn, mem_nlRow.mpr ⟨Or.inr ?_, hpass⟩⟩
      apply mem_imageRow.mpr
      refine ⟨i, hi, -g, latticeImages_neg_mem hg, ?_⟩
      show (⟨n, i, -g, _⟩ : Cand) = _
      have hd : V3.normSq (getPt coords i + rowVecMul (-g) L - getPt coords n)
          = V3.normSq (getPt coords n + rowVecMul g L - getPt coords i) := by
        rw [rowVecMul_neg, ← V3.normSq_neg]
        congr 1
        ext <;> simp <;> ring
      rw [hd]
  · intro hdet
    unfold range_neighbour_lattice
    rw [if_neg hdet]

theorem range_neighbour_lattice_symmetric_witness :
    mirrorCand ⟨0, 0, ⟨0, 0, -1⟩, 1⟩ ∈ nlCands [V3.zero] (cubic 1) (11/10) false true :=
  (range_neighbour_lattice_symmetric [V3.zero] (cubic 1) (11/10) false true).1
    ⟨0, 0, ⟨0, 0, -1⟩, 1⟩ (by decide)

/-- C2: calling `range_neighbour_lattice` with `max_distance=None` does not
return the unfiltered candidate list; line 204 evaluates
`None + max_radius_cell`, which raises `TypeError` (even though the docstring
says `max_distance` "can also be None"). -/
theorem range_neighbour_lattice_none_typeError :
    range_neighbour_lattice [V3.zero] (cubic 1) none false true =
      .error .typeError := by decide

set_option maxRecDepth 100000 in
/-- C3 (counterexample): a near-singular lattice (volume `1/50` with
unit-length basis vectors in the other directions) does not make
`range_neighbour_lattice` fail: `np.linalg.inv` succeeds on it and the call
returns an ordinary result computed from the large inverse. -/
theorem range_neighbour_lattice_near_singular_ok :
    range_neighbour_lattice [V3.zero] ⟨⟨1, 0, 0⟩, ⟨0, 1, 0⟩, ⟨0, 0, 1/50⟩⟩
      (some (1/100)) false false = .ok ([], [], []) := by decide

/-- C3 (amended): only an exactly singular lattice makes the function fail,
with `numpy.linalg.LinAlgError` raised by `np.linalg.inv` (there is no
`DegenerateLatticeError` anywhere in the code); near-singular but invertible
lattices are processed silently. -/
theorem range_neighbour_lattice_singular_linAlgError
    (coords : List V3) (L : M3) (md? : Option ℚ) (sl sd : Bool)
    (hdet : det3 (M3.transpose L) = 0) :
    range_neighbour_lattice coords L md? sl sd = .error .linAlgError := by
  unfold range_neighbour_lattice
  rw [if_pos hdet]

theorem range_neighbour_lattice_singular_linAlgError_witness :
    range_neighbour_lattice [V3.zero] ⟨⟨1, 0, 0⟩, ⟨1, 0, 0⟩, ⟨0, 0, 1⟩⟩
      (some 4) false true = .error .linAlgError :=
  range_neighbour_lattice_singular_linAlgError [V3.zero]
    ⟨⟨1, 0, 0⟩, ⟨1, 0, 0⟩, ⟨0, 0, 1⟩⟩ (some 4) false true (by decide)

/-! Scaling invariance: scaling the coordinates, the lattice and the cutoff
by a positive factor `t` leaves indices and images unchanged and multiplies
every squared distance by `t^2`.  This is how the cubic-lattice property is
proved for an arbitrary lattice constant. -/

theorem det3_smul (t : ℚ) (m : M3) : det3 (t • m) = t ^ 3 * det3 m := by
  simp only [det3, M3.smul_r0, M3.smul_r1, M3.smul_r2, V3.smul_x, V3.smul_y,
    V3.smul_z]
  ring

theorem transpose_smul (t : ℚ) (m : M3) :
    (t • m).transpose = t • m.transpose := rfl

theorem inv3_smul {t : ℚ} (ht : t ≠ 0) (m : M3) :
    inv3 (t • m) = t⁻¹ • inv3 m := by
  ext <;>
    (simp only [inv3, det3_smul, M3.smul_r0, M3.smul_r1, M3.smul_r2,
       V3.smul_x, V3.smul_y, V3.smul_z]
     rcases eq_or_ne (det3 m) 0 with hD | hD
     · simp [hD]
     · field_simp
       ring)

theorem smul_sub_V3 (t : ℚ) (a b : V3) : t • a - t • b = t • (a - b) := by
  ext <;> simp <;> ring

theorem cellCenter_smul (t : ℚ) (L : M3) :
    cellCenter (t • L) = t • cellCenter L := by
  unfold cellCenter
  ext <;> simp <;> ring

theorem cellRadiusSq_smul (t : ℚ) (L : M3) :
    cellRadiusSq (t • L) = t ^ 2 * cellRadiusSq L := by
  unfold cellRadiusSq
  rw [cellCenter_smul, M3.smul_r0, M3.smul_r1, M3.smul_r2,
    smul_sub_V3, smul_sub_V3, smul_sub_V3, V3.normSq_smul, V3.normSq_smul,
    V3.normSq_smul, mul_max_of_nonneg _ _ (sq_nonneg t),
    mul_max_of_nonneg _ _ (sq_nonneg t)]

theorem absRowSums_inv3_transpose_smul {t : ℚ} (ht : 0 < t) (L : M3) :
    absRowSums (inv3 (M3.transpose (t • L)))
      = t⁻¹ • absRowSums (inv3 (M3.transpose L)) := by
  rw [transpose_smul, inv3_smul (ne_of_gt ht)]
  generalize inv3 (M3.transpose L) = M
  have h : 0 ≤ t⁻¹ := le_of_lt (inv_pos.mpr ht)
  ext <;> simp [absRowSums, abs_mul, abs_of_nonneg h] <;> ring

theorem boundingBox_smul {t : ℚ} (ht : 0 < t) (L : M3) (md : ℚ) :
    boundingBox (t • L) (t * md) = boundingBox L md := by
  have ht' : t ≠ 0 := ne_of_gt ht
  unfold boundingBox
  rw [absRowSums_inv3_transpose_smul ht, cellRadiusSq_smul]
  have h1 : ∀ c : ℚ, t⁻¹ * c * (t * md) = c * md := by
    intro c; field_simp; ring
  have h2 : ∀ c r : ℚ, (t⁻¹ * c) ^ 2 * (t ^ 2 * r) = c ^ 2 * r := by
    intro c r; field_simp; ring
  simp only [V3.smul_x, V3.smul_y, V3.smul_z]
  rw [h1, h1, h1, h2, h2, h2]

theorem leAddSqrt_scale {t : ℚ} (ht : 0 < t) (s md r : ℚ) :
    leAddSqrt (t ^ 2 * s) (t * md) (t ^ 2 * r) = leAddSqrt s md r := by
  have h2 : (0:ℚ) < t ^ 2 := by positivity
  have h4 : (0:ℚ) < t ^ 4 := by positivity
  have hc : (0 ≤ t * md) ↔ (0 ≤ md) := mul_nonneg_iff_of_pos_left ht
  unfold leAddSqrt
  by_cases h : 0 ≤ md
  · rw [if_pos (hc.mpr h), if_pos h]
    have e1 : t ^ 2 * s - (t * md) ^ 2 - t ^ 2 * r = t ^ 2 * (s - md ^ 2 - r) := by
      ring
    rw [e1]
    by_cases h5 : s - md ^ 2 - r ≤ 0
    · rw [if_pos (by nlinarith), if_pos h5]
    · rw [if_neg (by nlinarith), if_neg h5]
      apply decide_eq_decide.mpr
      rw [show (t ^ 2 * (s - md ^ 2 - r)) ^ 2 = t ^ 4 * (s - md ^ 2 - r) ^ 2 from by ring,
        show 4 * (t * md) ^ 2 * (t ^ 2 * r) = t ^ 4 * (4 * md ^ 2 * r) from by ring]
      exact mul_le_mul_left h4
  · rw [if_neg (fun hx => h (hc.mp hx)), if_neg h]
    have e1 : t ^ 2 * r - t ^ 2 * s - (t * md) ^ 2 = t ^ 2 * (r - s - md ^ 2) := by
      ring
    rw [e1]
    by_cases h5 : r - s - md ^ 2 < 0
    · rw [if_pos (by nlinarith), if_pos h5]
    · rw [if_neg (by nlinarith), if_neg h5]
      apply decide_eq_decide.mpr
      rw [show (t ^ 2 * (r - s - md ^ 2)) ^ 2 = t ^ 4 * (r - s - md ^ 2) ^ 2 from by ring,
        show 4 * (t * md) ^ 2 * (t ^ 2 * s) = t ^ 4 * (4 * md ^ 2 * s) from by ring]
      exact mul_le_mul_left h4

theorem leSqrtRat_scale {t : ℚ} (ht : 0 < t) (d md : ℚ) :
    leSqrtRat (t ^ 2 * d) (t * md) = leSqrtRat d md := by
  have h2 : (0:ℚ) < t ^ 2 := by positivity
  unfold leSqrtRat
  congr 1
  · exact decide_eq_decide.mpr (mul_nonneg_iff_of_pos_left ht)
  · apply decide_eq_decide.mpr
    rw [show (t * md) ^ 2 = t ^ 2 * md ^ 2 from by ring]
    exact mul_le_mul_left h2

theorem rowVecMul_smul (t : ℚ) (g : Z3) (L : M3) :
    rowVecMul g (t • L) = t • rowVecMul g L := by
  ext <;> simp [rowVecMul] <;> ring

theorem latticeImages_smul {t : ℚ} (ht : 0 < t) (L : M3) (md : ℚ) :
    latticeImages (t • L) (t * md) = latticeImages L md := by
  unfold latticeImages
  rw [boundingBox_smul ht]
  apply List.filter_congr
  intro g _
  rw [rowVecMul_smul, V3.normSq_smul, cellRadiusSq_smul]
  exact leAddSqrt_scale ht _ _ _

theorem getPt_map_smul (t : ℚ) (coords : List V3) (j : ℕ) :
    getPt (coords.map (fun p => t • p)) j = t • getPt coords j := by
  unfold getPt
  rw [List.getD_eq_getElem?_getD, List.getD_eq_getElem?_getD, List.getElem?_map]
  cases coords[j]? <;> simp [V3.smul_zero']

theorem centerRow_map_smul (t : ℚ) (coords : List V3) (sl : Bool) (i : ℕ) :
    centerRow (coords.map (fun p => t • p)) sl i
      = (centerRow coords sl i).map (scaleCand t) := by
  unfold centerRow
  rw [List.length_map, List.map_map]
  apply List.map_congr_left
  intro j _
  simp only [Function.comp, scaleCand, getPt_map_smul, smul_sub_V3,
    V3.normSq_smul]

theorem imageRow_map_smul {t : ℚ} (ht : 0 < t) (coords : List V3) (L : M3)
    (md : ℚ) (i : ℕ) :
    imageRow (coords.map (fun p => t • p)) (t • L) (t * md) i
      = (imageRow coords L md i).map (scaleCand t) := by
  unfold imageRow
  rw [List.length_map, latticeImages_smul ht, List.map_flatMap]
  apply List.flatMap_congr
  intro n _
  rw [List.map_map]
  apply List.map_congr_left
  intro g _
  simp only [Function.comp, scaleCand, getPt_map_smul, rowVecMul_smul]
  congr 1
  rw [show t • getPt coords n + t • rowVecMul g L - t • getPt coords i
      = t • (getPt coords n + rowVecMul g L - getPt coords i) from by
    ext <;> simp <;> ring, V3.normSq_smul]

theorem rowBase_map_smul {t : ℚ} (ht : 0 < t) (coords : List V3) (L : M3)
    (md : ℚ) (sl : Bool) (i : ℕ) :
    rowBase (coords.map (fun p => t • p)) (t • L) (t * md) sl i
      = (rowBase coords L md sl i).map (scaleCand t) := by
  unfold rowBase
  rw [centerRow_map_smul, imageRow_map_smul ht, List.map_append]

theorem orderedInsert_scale {t : ℚ} (ht : 0 < t) (c : Cand) (l : List Cand) :
    List.orderedInsert candLE (scaleCand t c) (l.map (scaleCand t))
      = (List.orderedInsert candLE c l).map (scaleCand t) := by
  induction l with
  | nil => rfl
  | cons b bs ih =>
    have hiff : candLE (scaleCand t c) (scaleCand t b) ↔ candLE c b :=
      mul_le_mul_left (by positivity)
    simp only [List.map_cons, List.orderedInsert]
    by_cases h : candLE c b
    · rw [if_pos (hiff.mpr h), if_pos h, List.map_cons, List.map_cons]
    · rw [if_neg (fun hx => h (hiff.mp hx)), if_neg h, List.map_cons, ih]

theorem insertionSort_scale {t : ℚ} (ht : 0 < t) (l : List Cand) :
    List.insertionSort candLE (l.map (scaleCand t))
      = (List.insertionSort candLE l).map (scaleCand t) := by
  induction l with
  | nil => rfl
  | cons b bs ih =>
    simp only [List.map_cons, List.insertionSort, ih, orderedInsert_scale ht]

theorem nlRow_smul {t : ℚ} (ht : 0 < t) (coords : List V3) (L : M3) (md : ℚ)
    (sl sd : Bool) (i : ℕ) :
    nlRow (coords.map (fun p => t • p)) (t • L) (t * md) sl sd i
      = (nlRow coords L md sl sd i).map (scaleCand t) := by
  unfold nlRow
  rw [rowBase_map_smul ht]
  have hsort :
      (if sd = true then
          List.insertionSort candLE ((rowBase coords L md sl i).map (scaleCand t))
        else (rowBase coords L md sl i).map (scaleCand t))
      = (if sd = true then List.insertionSort candLE (rowBase coords L md sl i)
          else rowBase coords L md sl i).map (scaleCand t) := by
    cases sd
    · simp
    · simp [insertionSort_scale ht]
  rw [hsort, List.filter_map]
  congr 1
  apply List.filter_congr
  intro c _
  show leSqrtRat (scaleCand t c).dsq (t * md) = leSqrtRat c.dsq md
  show leSqrtRat (t ^ 2 * c.dsq) (t * md) = leSqrtRat c.dsq md
  exact leSqrtRat_scale ht _ _

theorem nlCands_smul {t : ℚ} (ht : 0 < t) (coords : List V3) (L : M3) (md : ℚ)
    (sl sd : Bool) :
    nlCands (coords.map (fun p => t • p)) (t • L) (t * md) sl sd
      = (nlCands coords L md sl sd).map (scaleCand t) := by
  unfold nlCands
  rw [List.length_map, List.map_flatMap]
  apply List.flatMap_congr
  intro i _
  exact nlRow_smul ht coords L md sl sd i

/-- On a non-singular lattice with a finite cutoff, the function returns the
three projections of the flattened candidate list. -/
theorem range_neighbour_lattice_eq_ok {coords : List V3} {L : M3} {md : ℚ}
    {sl sd : Bool} (hdet : det3 (M3.transpose L) ≠ 0) :
    range_neighbour_lattice coords L (some md) sl sd =
      .ok ((nlCands coords L md sl sd).map (fun c => (c.ctr, c.nb)),
           (nlCands coords L md sl sd).map Cand.img,
           (nlCands coords L md sl sd).map Cand.dsq) := by
  unfold range_neighbour_lattice
  rw [if_neg hdet]

/-- C1: for the simple cubic lattice `a · I` (any positive lattice constant
`a`) with one atom at the origin, `self_loops=False` and
`max_distance = 1.1·a`, the function returns exactly six neighbour entries —
the six face images — each at squared distance `a^2` (distance `a`),
whichever value `sort_distance` has. -/
theorem range_neighbour_lattice_cubic_six_neighbours (a : ℚ) (ha : 0 < a)
    (sd : Bool) :
    range_neighbour_lattice [V3.zero] (cubic a) (some (11/10 * a)) false sd =
      .ok ([(0, 0), (0, 0), (0, 0), (0, 0), (0, 0), (0, 0)],
           [⟨0, 0, -1⟩, ⟨-1, 0, 0⟩, ⟨0, -1, 0⟩, ⟨0, 1, 0⟩, ⟨1, 0, 0⟩, ⟨0, 0, 1⟩],
           [a ^ 2, a ^ 2, a ^ 2, a ^ 2, a ^ 2, a ^ 2]) := by
  have hdet : det3 (M3.transpose (cubic a)) ≠ 0 := by
    have h : det3 (M3.transpose (cubic a)) = a ^ 3 := by
      simp only [det3, cubic, M3.transpose]
      ring
    rw [h]
    positivity
  rw [range_neighbour_lattice_eq_ok hdet]
  have hcoords : [V3.zero] = [V3.zero].map (fun p => a • p) := by
    simp [V3.smul_zero']
  have hlat : cubic a = a • cubic 1 := by
    ext <;> simp [cubic]
  have hmd : (11/10 : ℚ) * a = a * (11/10) := mul_comm _ _
  rw [hcoords, hlat, hmd, nlCands_smul ha]
  have hbase : nlCands [V3.zero] (cubic 1) (11/10) false sd =
      [⟨0, 0, ⟨0, 0, -1⟩, 1⟩, ⟨0, 0, ⟨-1, 0, 0⟩, 1⟩, ⟨0, 0, ⟨0, -1, 0⟩, 1⟩,
       ⟨0, 0, ⟨0, 1, 0⟩, 1⟩, ⟨0, 0, ⟨1, 0, 0⟩, 1⟩, ⟨0, 0, ⟨0, 0, 1⟩, 1⟩] := by
    cases sd
    · decide
    · decide
  rw [hbase]
  simp [scaleCand]

theorem range_neighbour_lattice_cubic_six_neighbours_witness :
    range_neighbour_lattice [V3.zero] (cubic 2) (some (11/10 * 2)) false true =
      .ok ([(0, 0), (0, 0), (0, 0), (0, 0), (0, 0), (0, 0)],
           [⟨0, 0, -1⟩, ⟨-1, 0, 0⟩, ⟨0, -1, 0⟩, ⟨0, 1, 0⟩, ⟨1, 0, 0⟩, ⟨0, 0, 1⟩],
           [(2 : ℚ) ^ 2, 2 ^ 2, 2 ^ 2, 2 ^ 2, 2 ^ 2, 2 ^ 2]) :=
  range_neighbour_lattice_cubic_six_neighbours 2 (by norm_num) true

/-! Counting lemmas for the self-loop toggle. -/

theorem V3.sub_self' (v : V3) : v - v = V3.zero := by
  ext <;> simp [V3.zero]

theorem V3.normSq_zero' : V3.normSq V3.zero = 0 := by
  simp [V3.normSq, V3.zero]

theorem imageRow_img_ne_zero {coords : List V3} {L : M3} {md : ℚ} {i : ℕ}
    {c : Cand} (hc : c ∈ imageRow coords L md i) : c.img ≠ Z3.zero := by
  obtain ⟨n, _, g, hg, rfl⟩ := mem_imageRow.mp hc
  exact latticeImages_ne_zero hg

theorem countP_range_decide_eq {N i : ℕ} (h : i < N) :
    List.countP (fun j => decide (j = i)) (List.range N) = 1 := by
  induction N with
  | zero => omega
  | succ n ih =>
    rw [List.range_succ, List.countP_append]
    rcases Nat.lt_or_ge i n with h' | h'
    · rw [ih h']
      have h0 : List.countP (fun j => decide (j = i)) [n] = 0 := by
        simp only [List.countP_cons, List.countP_nil]
        have : n ≠ i := by omega
        simp [this]
      rw [h0]
    · have hin : i = n := by omega
      subst hin
      have h0 : List.countP (fun j => decide (j = i)) (List.range i) = 0 := by
        rw [List.countP_eq_zero]
        intro a ha
        rw [List.mem_range] at ha
        simp only [decide_eq_true_eq]
        omega
      rw [h0]
      simp [List.countP_cons]

theorem countP_range_decide_eq_zero {N i : ℕ} (h : N ≤ i) :
    List.countP (fun j => decide (j = i)) (List.range N) = 0 := by
  rw [List.countP_eq_zero]
  intro a ha
  rw [List.mem_range] at ha
  simp only [decide_eq_true_eq]
  omega

theorem countP_self_nlRow {coords : List V3} {L : M3} {md : ℚ} (hmd : 0 ≤ md)
    (sd : Bool) (i i' : ℕ) :
    List.countP (fun c => decide (c.ctr = i ∧ c.nb = i ∧ c.img = Z3.zero))
      (nlRow coords L md true sd i')
      = if i' = i ∧ i < coords.length then 1 else 0 := by
  by_cases hii : i' = i
  · subst hii
    have hstep1 :
        List.countP (fun c => decide (c.ctr = i' ∧ c.nb = i' ∧ c.img = Z3.zero))
            (nlRow coords L md true sd i')
          = List.countP
              (fun c => decide (c.ctr = i' ∧ c.nb = i' ∧ c.img = Z3.zero) &&
                leSqrtRat c.dsq md)
              (rowBase coords L md true i') := by
      unfold nlRow
      cases sd
      · rw [if_neg (by simp), List.countP_filter]
      · rw [if_pos rfl, List.countP_filter]
        exact (List.perm_insertionSort candLE _).countP_eq _
    rw [hstep1]
    unfold rowBase
    rw [List.countP_append]
    have himg :
        List.countP
            (fun c => decide (c.ctr = i' ∧ c.nb = i' ∧ c.img = Z3.zero) &&
              leSqrtRat c.dsq md)
            (imageRow coords L md i') = 0 := by
      rw [List.countP_eq_zero]
      intro c hc
      have := imageRow_img_ne_zero hc
      simp only [Bool.and_eq_true, decide_eq_true_eq]
      rintro ⟨⟨_, _, himg0⟩, _⟩
      exact this himg0
    rw [himg]
    unfold centerRow
    have hfil : (List.range coords.length).filter
        (fun j => true || decide (¬ j = i')) = List.range coords.length := by
      simp
    rw [hfil, List.countP_map]
    have hpoint : ∀ j ∈ List.range coords.length,
        ((fun c : Cand => decide (c.ctr = i' ∧ c.nb = i' ∧ c.img = Z3.zero) &&
            leSqrtRat c.dsq md) ∘
          (fun j => (⟨i', j, Z3.zero,
            V3.normSq (getPt coords j - getPt coords i')⟩ : Cand))) j
          = (fun j => decide (j = i')) j := by
      intro j _
      by_cases hj : j = i'
      · subst hj
        simp only [Function.comp, decide_eq_true_eq]
        rw [V3.sub_self', V3.normSq_zero']
        have hq : leSqrtRat 0 md = true := by
          unfold leSqrtRat
          simp only [Bool.and_eq_true, decide_eq_true_eq]
          exact ⟨hmd, by positivity⟩
        rw [hq]
        simp
      · simp only [Function.comp, decide_eq_true_eq]
        have : ¬(i' = i' ∧ j = i' ∧ Z3.zero = Z3.zero) := fun hx => hj hx.2.1
        simp [this, hj]
    rw [List.countP_eq_length_filter, List.filter_congr hpoint,
      ← List.countP_eq_length_filter]
    rcases Nat.lt_or_ge i' coords.length with hN | hN
    · rw [countP_range_decide_eq hN, if_pos ⟨rfl, hN⟩]
    · rw [countP_range_decide_eq_zero hN,
        if_neg (fun hx => by omega)]
  · rw [if_neg (fun hx => hii hx.1), List.countP_eq_zero]
    intro c hc
    have hctr := nlRow_ctr hc
    simp only [decide_eq_true_eq]
    rintro ⟨h1, _⟩
    exact hii (hctr ▸ h1)

theorem sum_indicator_range {N i : ℕ} (h : i < N) :
    ((List.range N).map (fun j => if j = i then 1 else 0)).sum = 1 := by
  induction N with
  | zero => omega
  | succ n ih =>
    rw [List.range_succ, List.map_append, List.sum_append]
    rcases Nat.lt_or_ge i n with h' | h'
    · rw [ih h']
      have : n ≠ i := by omega
      simp [this]
    · have hin : i = n := by omega
      subst hin
      have h0 : ((List.range i).map (fun j => if j = i then 1 else 0)).sum = 0 := by
        apply List.sum_eq_zero
        intro x hx
        obtain ⟨j, hj, rfl⟩ := List.mem_map.mp hx
        rw [List.mem_range] at hj
        have : j ≠ i := by omega
        simp [this]
      simp [h0]

/-- C9: the `self_loops` flag governs exactly the same-cell diagonal pairs.
With `self_loops=False` no output entry has `i = j` with image `(0,0,0)`;
with `self_loops=True` there is exactly one such entry per central node
`i < N`, it has (squared) distance `0`, and entries with a non-zero image are
present independently of the flag.  The cutoff is assumed non-negative (a
negative cutoff empties the whole output). -/
theorem range_neighbour_lattice_self_loops (coords : List V3) (L : M3)
    (md : ℚ) (sd : Bool) (hmd : 0 ≤ md) :
    (∀ c ∈ nlCands coords L md false sd, ¬(c.ctr = c.nb ∧ c.img = Z3.zero))
    ∧ (∀ i, i < coords.length →
        List.countP (fun c => decide (c.ctr = i ∧ c.nb = i ∧ c.img = Z3.zero))
          (nlCands coords L md true sd) = 1)
    ∧ (∀ c ∈ nlCands coords L md true sd,
        c.ctr = c.nb → c.img = Z3.zero → c.dsq = 0)
    ∧ (∀ c : Cand, c.img ≠ Z3.zero →
        (c ∈ nlCands coords L md true sd ↔ c ∈ nlCands coords L md false sd)) := by
  refine ⟨?_, ?_, ?_, ?_⟩
  · intro c hc
    obtain ⟨i, hi, hrow⟩ := mem_nlCands.mp hc
    rcases (mem_nlRow.mp hrow).1 with h | h
    · obtain ⟨j, hj, hcond, rfl⟩ := mem_centerRow.mp h
      rcases hcond with h' | h'
      · exact absurd h' (by simp)
      · rintro ⟨hctr, _⟩
        exact h' hctr.symm
    · rintro ⟨_, himg⟩
      exact imageRow_img_ne_zero h himg
  · intro i hi
    unfold nlCands
    rw [List.countP_flatMap]
    have hmap : (List.range coords.length).map
          (List.countP (fun c => decide (c.ctr = i ∧ c.nb = i ∧ c.img = Z3.zero)) ∘
            nlRow coords L md true sd)
        = (List.range coords.length).map (fun j => if j = i then 1 else 0) := by
      apply List.map_congr_left
      intro i' _
      show List.countP _ (nlRow coords L md true sd i') = _
      rw [countP_self_nlRow hmd sd i i']
      by_cases hii : i' = i
      · simp [hii, hi]
      · simp [hii]
    rw [hmap, sum_indicator_range hi]
  · intro c hc hctr himg
    obtain ⟨i, hi, hrow⟩ := mem_nlCands.mp hc
    rcases (mem_nlRow.mp hrow).1 with h | h
    · obtain ⟨j, hj, _, rfl⟩ := mem_centerRow.mp h
      have : j = i := by
        have : (⟨i, j, Z3.zero, _⟩ : Cand).ctr = (⟨i, j, Z3.zero, _⟩ : Cand).nb := hctr
        exact this.symm
      subst this
      show V3.normSq (getPt coords j - getPt coords j) = 0
      rw [V3.sub_self', V3.normSq_zero']
    · exact absurd himg (imageRow_img_ne_zero h)
  · intro c himg
    constructor <;> intro hc <;>
      obtain ⟨i, hi, hrow⟩ := mem_nlCands.mp hc <;>
      refine mem_nlCands.mpr ⟨i, hi, mem_nlRow.mpr ⟨?_, (mem_nlRow.mp hrow).2⟩⟩ <;>
      rcases (mem_nlRow.mp hrow).1 with h | h
    · obtain ⟨j, _, _, rfl⟩ := mem_centerRow.mp h
      exact absurd rfl himg
    · exact Or.inr h
    · obtain ⟨j, hj, hcond, rfl⟩ := mem_centerRow.mp h
      exact absurd rfl himg
    · exact Or.inr h

theorem range_neighbour_lattice_self_loops_witness :
    List.countP (fun c => decide (c.ctr = 0 ∧ c.nb = 0 ∧ c.img = Z3.zero))
      (nlCands [V3.zero] (cubic 1) (11/10) true true) = 1 :=
  (range_neighbour_lattice_self_loops [V3.zero] (cubic 1) (11/10) true
    (by norm_num)).2.1 0 (by norm_num)

/-- C10: the flattened outputs are grouped contiguously by central node in
ascending order (the output is the concatenation, over `i = 0, …, N-1`, of
node `i`'s row, every candidate of which has central index `i`), and with
`sort_distance=True` the (squared) distances inside each row are
non-decreasing — the final cutoff filter preserves the sorted order. -/
theorem range_neighbour_lattice_grouped_and_sorted (coords : List V3) (L : M3)
    (md : ℚ) (sl sd : Bool) (hdet : det3 (M3.transpose L) ≠ 0) :
    (range_neighbour_lattice coords L (some md) sl sd =
      .ok ((nlCands coords L md sl sd).map (fun c => (c.ctr, c.nb)),
           (nlCands coords L md sl sd).map Cand.img,
           (nlCands coords L md sl sd).map Cand.dsq))
    ∧ nlCands coords L md sl sd
        = (List.range coords.length).flatMap (nlRow coords L md sl sd)
    ∧ (∀ i, ∀ c ∈ nlRow coords L md sl sd i, c.ctr = i)
    ∧ (∀ i, List.Sorted (· ≤ ·) ((nlRow coords L md sl true i).map Cand.dsq)) := by
  refine ⟨range_neighbour_lattice_eq_ok hdet, rfl,
    fun i c hc => nlRow_ctr hc, fun i => ?_⟩
  have hrow : nlRow coords L md sl true i
      = (List.insertionSort candLE (rowBase coords L md sl i)).filter
          (fun c => leSqrtRat c.dsq md) := rfl
  rw [hrow]
  have hs : List.Sorted candLE
      (List.insertionSort candLE (rowBase coords L md sl i)) :=
    List.sorted_insertionSort candLE _
  have hs2 : List.Sorted candLE
      ((List.insertionSort candLE (rowBase coords L md sl i)).filter
        (fun c => leSqrtRat c.dsq md)) :=
    hs.filter _
  exact List.pairwise_map.mpr hs2

theorem range_neighbour_lattice_grouped_and_sorted_witness :
    range_neighbour_lattice [V3.zero] (cubic 1) (some (11/10)) false true =
      .ok ((nlCands [V3.zero] (cubic 1) (11/10) false true).map
             (fun c => (c.ctr, c.nb)),
           (nlCands [V3.zero] (cubic 1) (11/10) false true).map Cand.img,
           (nlCands [V3.zero] (cubic 1) (11/10) false true).map Cand.dsq) :=
  (range_neighbour_lattice_grouped_and_sorted [V3.zero] (cubic 1) (11/10)
    false true (by decide)).1

/-! IEEE-754 shadow-scalar computation lemmas. -/

theorem F.nan_mul (x : F) : F.mul F.nan x = F.nan := by cases x <;> rfl

theorem F.mul_nan (x : F) : F.mul x F.nan = F.nan := by cases x <;> rfl

theorem F.nan_add (x : F) : F.add F.nan x = F.nan := by cases x <;> rfl

theorem F.nan_sub (x : F) : F.sub F.nan x = F.nan := by cases x <;> rfl

theorem F.mul_fin_fin (a b : ℚ) : F.mul (F.fin a) (F.fin b) = F.fin (a * b) := rfl

theorem F.div_fin_zero (a : ℚ) :
    F.div (F.fin a) (F.fin 0) =
      if a = 0 then F.nan else if 0 < a then F.inf else F.ninf := by
  simp [F.div]

theorem F.div_fin_fin (a b : ℚ) (hb : b ≠ 0) :
    F.div (F.fin a) (F.fin b) = F.fin (a / b) := by
  simp [F.div, hb]

theorem F.div_inf_fin_pos (b : ℚ) (hb : 0 < b) :
    F.div F.inf (F.fin b) = F.inf := by
  simp [F.div, not_lt.mpr hb.le]

theorem F.div_ninf_fin_pos (b : ℚ) (hb : 0 < b) :
    F.div F.ninf (F.fin b) = F.ninf := by
  simp [F.div, not_lt.mpr hb.le]

theorem F.div_nan (x : F) : F.div F.nan x = F.nan := by cases x <;> rfl

/-- C4 (counterexample): on the Coulomb matrix `[[0, 1], [1, 1/2]]` — whose
zero diagonal entry gives charge `0` and whose second diagonal gives charge
`(2·(1/2))^(1/2.4) = 1` exactly, so the power oracle is pinned by true IEEE
facts at both applied points — the off-diagonal entry of row 0 of the decoded
inverse-distance matrix is `+inf`, not `0`: the source zeroes only the
diagonal and never post-processes the rest of the row or column. -/
theorem coulomb_matrix_zero_diag_counterexample :
    (coulomb_matrix_to_inverse_distance_proton
        (fun q => if q = 0 then F.fin 0 else if q = 1 then F.fin 1 else F.nan)
        2 ![![0, 1], ![1, 1/2]] 1).1 0 1 = F.inf
    ∧ F.inf ≠ F.fin 0 := by
  constructor
  · decide
  · decide

/-- C4 (amended): if `C[i,i] = 0` then the decoder returns charge `Z_i = 0`
and a zeroed diagonal entry `(i,i)`, but the remaining entries of row `i` and
column `i` of the inverse-distance output are `+inf` where the Coulomb entry
is positive, `-inf` where negative, and `nan` where zero — they are not
post-processed to zero.  The oracle hypotheses pin `pow_` down by the IEEE
facts `0 ** (1/2.4) = 0` and finiteness/non-negativity of the other recovered
charges. -/
theorem coulomb_matrix_zero_diag_amended (n : ℕ) (pow_ : ℚ → F)
    (C : Fin n → Fin n → ℚ) (unit : ℚ) (i : Fin n)
    (hCi : C i i = 0) (hp0 : pow_ 0 = F.fin 0)
    (hfin : ∀ j, ∃ q : ℚ, 0 ≤ q ∧ pow_ (2 * C j j) = F.fin q)
    (hu : 0 < unit) :
    (coulomb_matrix_to_inverse_distance_proton pow_ n C unit).2 i = 0
    ∧ (coulomb_matrix_to_inverse_distance_proton pow_ n C unit).1 i i = F.fin 0
    ∧ ∀ j, j ≠ i →
        ((coulomb_matrix_to_inverse_distance_proton pow_ n C unit).1 i j
          = if 0 < C i j then F.inf else if C i j < 0 then F.ninf else F.nan)
        ∧ ((coulomb_matrix_to_inverse_distance_proton pow_ n C unit).1 j i
          = if 0 < C j i then F.inf else if C j i < 0 then F.ninf else F.nan) := by
  have hu' : unit ≠ 0 := ne_of_gt hu
  have hzi : pow_ (2 * C i i) = F.fin 0 := by
    rw [hCi, mul_zero, hp0]
  refine ⟨?_, ?_, ?_⟩
  · show F.toInt (F.round (pow_ (2 * C i i))) = 0
    rw [hzi]
    decide
  · show F.div (if i = i then F.fin 0
        else F.div (F.fin (C i i))
          (F.mul (pow_ (2 * C i i)) (pow_ (2 * C i i)))) (F.fin unit) = F.fin 0
    rw [if_pos rfl, F.div_fin_fin 0 unit hu', zero_div]
  · intro j hj
    obtain ⟨qj, hqj0, hqj⟩ := hfin j
    constructor
    · show F.div (if i = j then F.fin 0
          else F.div (F.fin (C i j))
            (F.mul (pow_ (2 * C i i)) (pow_ (2 * C j j)))) (F.fin unit) = _
      rw [if_neg (fun hx => hj hx.symm), hzi, hqj, F.mul_fin_fin, zero_mul,
        F.div_fin_zero]
      rcases lt_trichotomy (C i j) 0 with hlt | heq | hgt
      · rw [if_neg (ne_of_lt hlt), if_neg (lt_asymm hlt),
          F.div_ninf_fin_pos unit hu, if_neg (lt_asymm hlt), if_pos hlt]
      · rw [if_pos heq, F.div_nan, heq, if_neg (lt_irrefl 0),
          if_neg (lt_irrefl 0)]
      · rw [if_neg (ne_of_gt hgt), if_pos hgt, F.div_inf_fin_pos unit hu,
          if_pos hgt]
    · show F.div (if j = i then F.fin 0
          else F.div (F.fin (C j i))
            (F.mul (pow_ (2 * C j j)) (pow_ (2 * C i i)))) (F.fin unit) = _
      rw [if_neg hj, hzi, hqj, F.mul_fin_fin, mul_zero, F.div_fin_zero]
      rcases lt_trichotomy (C j i) 0 with hlt | heq | hgt
      · rw [if_neg (ne_of_lt hlt), if_neg (lt_asymm hlt),
          F.div_ninf_fin_pos unit hu, if_neg (lt_asymm hlt), if_pos hlt]
      · rw [if_pos heq, F.div_nan, heq, if_neg (lt_irrefl 0),
          if_neg (lt_irrefl 0)]
      · rw [if_neg (ne_of_gt hgt), if_pos hgt, F.div_inf_fin_pos unit hu,
          if_pos hgt]

theorem coulomb_matrix_zero_diag_amended_witness :
    (coulomb_matrix_to_inverse_distance_proton
        (fun q => if q = 0 then F.fin 0 else if q = 1 then F.fin 1 else F.nan)
        2 ![![0, 1], ![1, 1/2]] 1).2 0 = 0
    ∧ (coulomb_matrix_to_inverse_distance_proton
        (fun q => if q = 0 then F.fin 0 else if q = 1 then F.fin 1 else F.nan)
        2 ![![0, 1], ![1, 1/2]] 1).1 0 0 = F.fin 0
    ∧ ∀ j, j ≠ (0 : Fin 2) →
        ((coulomb_matrix_to_inverse_distance_proton
            (fun q => if q = 0 then F.fin 0 else if q = 1 then F.fin 1 else F.nan)
            2 ![![0, 1], ![1, 1/2]] 1).1 0 j
          = if 0 < (![![0, 1], ![1, 1/2]] : Fin 2 → Fin 2 → ℚ) 0 j then F.inf
            else if (![![0, 1], ![1, 1/2]] : Fin 2 → Fin 2 → ℚ) 0 j < 0 then F.ninf
            else F.nan)
        ∧ ((coulomb_matrix_to_inverse_distance_proton
            (fun q => if q = 0 then F.fin 0 else if q = 1 then F.fin 1 else F.nan)
            2 ![![0, 1], ![1, 1/2]] 1).1 j 0
          = if 0 < (![![0, 1], ![1, 1/2]] : Fin 2 → Fin 2 → ℚ) j 0 then F.inf
            else if (![![0, 1], ![1, 1/2]] : Fin 2 → Fin 2 → ℚ) j 0 < 0 then F.ninf
            else F.nan) :=
  coulomb_matrix_zero_diag_amended 2
    (fun q => if q = 0 then F.fin 0 else if q = 1 then F.fin 1 else F.nan)
    ![![0, 1], ![1, 1/2]] 1 0 (by decide) (by decide)
    (by
      intro j
      fin_cases j
      · exact ⟨0, le_refl 0, by decide⟩
      · exact ⟨1, by norm_num, by decide⟩)
    (by norm_num)

/-- C6 (counterexample): the decoder's rounding step is `np.round`, which
rounds half to even, not half away from zero.  No exact rational Coulomb
matrix produces an exactly-halfway recovered charge (the power is
transcendental), so the rounding step is exercised through the charge oracle:
with a recovered charge of exactly `1/2` the decoder returns `Z = 0` where
round-half-away-from-zero would give `1`; `roundHalfEven` itself sends `1/2`
to `0`, `3/2` to `2` and `5/2` to `2` (the claim demands `1`, `2`, `3`). -/
theorem coulomb_matrix_round_counterexample :
    (coulomb_matrix_to_inverse_distance_proton (fun _ => F.fin (1/2))
        1 ![![1/2]] 1).2 0 = 0
    ∧ ¬((coulomb_matrix_to_inverse_distance_proton (fun _ => F.fin (1/2))
        1 ![![1/2]] 1).2 0 = 1)
    ∧ roundHalfEven (1/2) = 0 ∧ roundHalfEven (3/2) = 2
    ∧ roundHalfEven (5/2) = 2 := by
  refine ⟨by decide, by decide, by decide, by decide, by decide⟩

/-- C6 (amended): the integer charges are obtained from the recovered charge
values with `np.round`, which rounds half to even: a value exactly halfway
between two integers goes to the even neighbour (`k + 1/2 ↦ k` for even `k`,
`k + 1` for odd `k`), not away from zero. -/
theorem coulomb_matrix_round_half_even :
    (∀ (n : ℕ) (pow_ : ℚ → F) (C : Fin n → Fin n → ℚ) (u : ℚ) (i : Fin n)
        (q : ℚ), pow_ (2 * C i i) = F.fin q →
        (coulomb_matrix_to_inverse_distance_proton pow_ n C u).2 i
          = roundHalfEven q)
    ∧ (∀ k : ℤ, roundHalfEven ((k : ℚ) + 1/2) = if 2 ∣ k then k else k + 1) := by
  constructor
  · intro n pow_ C u i q hq
    show F.toInt (F.round (pow_ (2 * C i i))) = roundHalfEven q
    rw [hq]
    show (⌊((roundHalfEven q : ℤ) : ℚ)⌋ : ℤ) = roundHalfEven q
    exact Int.floor_intCast _
  · intro k
    have hfl : ⌊(k : ℚ) + 1/2⌋ = k := by
      rw [Int.floor_int_add]
      norm_num
    have hr : (k : ℚ) + 1/2 - (k : ℚ) = 1/2 := by ring
    simp only [roundHalfEven, hfl, hr]
    rw [if_neg (lt_irrefl ((1:ℚ)/2)), if_neg (lt_irrefl ((1:ℚ)/2))]

theorem coulomb_matrix_round_half_even_witness :
    (coulomb_matrix_to_inverse_distance_proton (fun _ => F.fin (1/2))
        1 ![![1/2]] 1).2 0 = roundHalfEven (1/2) :=
  coulomb_matrix_round_half_even.1 1 (fun _ => F.fin (1/2)) ![![1/2]] 1 0
    (1/2) rfl

/-- C8 (counterexample): `make_rotation_matrix` on the zero axis raises no
exception (no `DegenerateGeometryError` exists in the code); it divides the
zero vector by its zero norm, getting `0.0 / 0.0 = nan`, and returns a matrix
of `nan` entries — here witnessed at entry `(0, 0)` with the square-root
oracle instantiated by the identity (which satisfies `sqrt 0 = 0`). -/
theorem make_rotation_matrix_zero_axis_counterexample :
    make_rotation_matrix (fun x => x) (F.fin 1) (F.fin 0) (0, 0, 0) 0 0 = F.nan
    ∧ F.nan ≠ F.fin 0 := by
  constructor
  · decide
  · decide

/-- C8 (amended): for the zero axis every entry of the returned matrix is
`nan`, whatever the cosine and sine values are: the direction components are
`0.0 / 0.0 = nan` and `nan` propagates through every entry formula.  The only
assumption on the square-root oracle is the IEEE fact `0.0 ** 0.5 = 0.0`. -/
theorem make_rotation_matrix_zero_axis_all_nan (sqrt_ : F → F)
    (cos_angle sin_angle : F) (h0 : sqrt_ (F.fin 0) = F.fin 0)
    (i j : Fin 3) :
    make_rotation_matrix sqrt_ cos_angle sin_angle (0, 0, 0) i j = F.nan := by
  unfold make_rotation_matrix
  have harg : (0:ℚ) * 0 + 0 * 0 + 0 * 0 = 0 := by norm_num
  rw [harg, h0]
  have hd : F.div (F.fin 0) (F.fin 0) = F.nan := by simp [F.div]
  rw [hd]
  fin_cases i <;> fin_cases j <;>
    simp [Matrix.vecHead, Matrix.vecTail, Function.comp, F.nan_mul, F.nan_add,
      F.nan_sub]

theorem make_rotation_matrix_zero_axis_all_nan_witness :
    make_rotation_matrix (fun x => x) F.inf F.nan (0, 0, 0) 1 2 = F.nan :=
  make_rotation_matrix_zero_axis_all_nan (fun x => x) F.inf F.nan rfl 1 2

/-- C7: whatever triple `(u, s, vt)` the SVD oracle returns and whatever the
`correct_reflection` flag is, the `(A_aligned, R, t)` returned by
`rigid_transform` satisfies `A_aligned = R·A + t` exactly, row by row, with
`t = centroid(B) - R·centroid(A)` — for every pair of point clouds, in exact
arithmetic. -/
theorem rigid_transform_affine_identity (svd : M3 → M3 × V3 × M3)
    (a b : List V3) (correct_reflection : Bool) :
    (rigid_transform svd a b correct_reflection).1
      = a.map (fun p =>
          M3.mulVec (rigid_transform svd a b correct_reflection).2.1 p
            + (rigid_transform svd a b correct_reflection).2.2)
    ∧ (rigid_transform svd a b correct_reflection).2.2
      = centroid b
        - M3.mulVec (rigid_transform svd a b correct_reflection).2.1
            (centroid a) := by
  have key : ∀ (R : M3) (ca cb : V3) (l : List V3),
      (l.map (fun p => p - ca)).map (fun p => M3.mulVec R p + cb)
        = l.map (fun p => M3.mulVec R p + (cb - M3.mulVec R ca)) := by
    intro R ca cb l
    rw [List.map_map]
    apply List.map_congr_left
    intro p _
    show M3.mulVec R (p - ca) + cb = M3.mulVec R p + (cb - M3.mulVec R ca)
    ext <;> simp [M3.mulVec, V3.dot] <;> ring
  exact ⟨key ((rigid_transform svd a b correct_reflection).2.1) (centroid a)
    (centroid b) a, rfl⟩
